import Mathlib

/-!
Shallow embedding of the Bitruvius pose-animation engine
(`src/components/KeymapHelper.tsx`, `src/unnamed/part_000` (Timeline),
`src/unnamed/part_001` (useAnimationEngine)) together with proofs about
its keyframe interpolation, playback, keyframe-time editing, undo/redo
history, chain-reaction propagation and two-bone IK behaviour.

Numbers are modelled as rationals (`ℚ`) except for the trigonometric IK
solver, which is modelled over `ℝ`.
-/

namespace Bitruvius

/-- The fixed closed set of joint identifiers: the keys of
`WalkingEnginePivotOffsets` (see `T_POSE` in `KeymapHelper.tsx`). -/
inductive JointKey : Type
  | waist | neck | collar | torso
  | l_shoulder | r_shoulder
  | l_elbow | r_elbow
  | l_hand | r_hand
  | l_hip | r_hip
  | l_knee | r_knee
  | l_foot | r_foot
  | l_toe | r_toe
  deriving DecidableEq, Fintype, Repr

/-- A pose: a rotation offset (degrees, as a rational) for every joint key,
mirroring `WalkingEnginePivotOffsets`. -/
def Pose : Type := JointKey → ℚ

instance : DecidableEq Pose := by unfold Pose; infer_instance

/-- The identically-zero pose (`T_POSE`). -/
def tPose : Pose := fun _ => 0

/-- The body-part keys of `WalkingEngineProportions` (`PROP_KEYS`). -/
inductive PartKey : Type
  | head | collar | torso | waist
  | l_upper_arm | l_lower_arm | l_hand
  | r_upper_arm | r_lower_arm | r_hand
  | l_upper_leg | l_lower_leg | l_foot | l_toe
  | r_upper_leg | r_lower_leg | r_foot | r_toe
  deriving DecidableEq, Fintype, Repr

/-- Proportions: width/height scale pair for each body part. -/
def Proportions : Type := PartKey → ℚ × ℚ

instance : DecidableEq Proportions := by unfold Proportions; infer_instance

/-! ### Kinematics helpers

`lerpAngleShortestPath`, `linear` and `easeInOutCubic` are imported by the
source from `utils/kinematics`, a file that is not part of the repository
snapshot; they are modelled from the spec.  `easeOutCubic` is translated
from the copy defined in `KeymapHelper.tsx`. -/

/-- Modelled from the spec: shortest-angular-path interpolation
(`lerpAngleShortestPath` of the missing `utils/kinematics`).  The
difference `b - a` is wrapped into `[-180, 180)` so the interpolation
direction covers at most 180 degrees, then linearly scaled by `t`. -/
def lerpAngleShortestPath (a b t : ℚ) : ℚ :=
  let d := b - a
  let w := d - 360 * ⌊(d + 180) / 360⌋
  a + w * t

/-- Modelled from the spec: the identity easing (`linear` of the missing
`utils/kinematics`). -/
def linear (t : ℚ) : ℚ := t

/-- `easeOutCubic`, translated from `KeymapHelper.tsx`. -/
def easeOutCubic (t : ℚ) : ℚ := 1 - (1 - t) ^ 3

/-- Modelled from the spec: the standard ease-in-out cubic
(`easeInOutCubic` of the missing `utils/kinematics`). -/
def easeInOutCubic (t : ℚ) : ℚ :=
  if t < 1 / 2 then 4 * t ^ 3 else 1 - (2 - 2 * t) ^ 3 / 2

/-- The easing choices of a keyframe (`EasingType` in `types`). -/
inductive EasingType : Type
  | linear | easeOut | easeInOut
  deriving DecidableEq, Repr

/-- The `easingFunctions` record of `useAnimationEngine`. -/
def applyEasing : EasingType → ℚ → ℚ
  | .linear => linear
  | .easeOut => easeOutCubic
  | .easeInOut => easeInOutCubic

/-! ### Keyframes and timeline resolution (`useAnimationEngine`) -/

/-- A keyframe: `{id, pose, time, easing?}` (`Keyframe` in `types`). -/
structure Keyframe : Type where
  id : String
  pose : Pose
  time : ℚ
  easing : Option EasingType := none

/-- `LOOP_DURATION` of `useAnimationEngine`: fixed duration of the loop
from the last keyframe back to the first. -/
def LOOP_DURATION : ℚ := 1000

/-- JavaScript's `%` on (non-negative-divisor) numbers: remainder with the
sign of the dividend (truncated division). -/
def jsMod (a b : ℚ) : ℚ :=
  if 0 ≤ a / b then a - b * ⌊a / b⌋ else a - b * ⌈a / b⌉

/-- The segment-search `for` loop shared by `runAnimationLoop`,
`handleScrub` and the GIF exporter: find adjacent keyframes `(a, b)` with
`a.time ≤ t < b.time`. -/
def findSeg : List Keyframe → ℚ → Option (Keyframe × Keyframe)
  | a :: b :: rest, t =>
      if a.time ≤ t ∧ t < b.time then some (a, b) else findSeg (b :: rest) t
  | _, _ => none

/-- The data the segment search produces: start keyframe, end pose,
segment start time and segment duration. -/
structure Segment : Type where
  startKf : Keyframe
  endPose : Pose
  segStart : ℚ
  segDur : ℚ

/-- Resolve a query time to its segment: the `segmentFound` search plus the
loop-closing fallback `[lastKeyframe.time, lastKeyframe.time +
LOOP_DURATION)` toward `keyframes[0]`'s pose.  `none` only when the list
is empty. -/
def resolveSeg (kfs : List Keyframe) (t : ℚ) : Option Segment :=
  match kfs.head?, kfs.getLast? with
  | some k0, some kl =>
      some (match findSeg kfs t with
        | some (a, b) => ⟨a, b.pose, a.time, b.time - a.time⟩
        | none => ⟨kl, k0.pose, kl.time, LOOP_DURATION⟩)
  | _, _ => none

/-- `progress = segmentDuration > 0 ? timeIntoSegment / segmentDuration : 1`. -/
def progressOf (seg : Segment) (t : ℚ) : ℚ :=
  if 0 < seg.segDur then (t - seg.segStart) / seg.segDur else 1

/-- The time of the last keyframe (0 for an empty list). -/
def lastTime (kfs : List Keyframe) : ℚ :=
  ((kfs.getLast?).map Keyframe.time).getD 0

/-- `totalDuration` of `useAnimationEngine`: 0 with fewer than 2 keyframes,
otherwise `lastKeyframe.time + LOOP_DURATION`. -/
def totalDurationOf (kfs : List Keyframe) : ℚ :=
  if kfs.length < 2 then 0 else lastTime kfs + LOOP_DURATION

/-- The pose computed by one `runAnimationLoop` tick at (pre-wrap) time
`t`: wrap modulo `totalDuration`, resolve the segment, apply the start
keyframe's easing (defaulting to linear) to the progress, then
interpolate every joint by shortest angular path.  `none` when the loop
bails out (fewer than 2 keyframes or zero total duration). -/
def animPoseAt (kfs : List Keyframe) (t : ℚ) : Option Pose :=
  if kfs.length < 2 ∨ totalDurationOf kfs = 0 then none
  else
    let newTime := jsMod t (totalDurationOf kfs)
    (resolveSeg kfs newTime).map (fun seg =>
      let progress := progressOf seg newTime
      let eased := applyEasing (seg.startKf.easing.getD .linear) progress
      fun k => lerpAngleShortestPath (seg.startKf.pose k) (seg.endPose k) eased)

/-- The pose committed by `handleScrub` (`KeymapHelper.tsx`) at scrub time
`t`: same wrap and segment resolution, but the raw progress is used
directly — no easing is applied.  `none` when the handler returns without
applying a pose. -/
def scrubPose (kfs : List Keyframe) (t : ℚ) : Option Pose :=
  if kfs.length < 2 then none
  else
    let totalDur := lastTime kfs + LOOP_DURATION
    if totalDur ≤ 0 then none
    else
      let eff := jsMod t totalDur
      (resolveSeg kfs eff).map (fun seg =>
        let progress := progressOf seg eff
        fun k => lerpAngleShortestPath (seg.startKf.pose k) (seg.endPose k) progress)

/-- The easing that `runAnimationLoop` would apply at (pre-wrap) time `t`. -/
def resolvedEasing (kfs : List Keyframe) (t : ℚ) : EasingType :=
  ((resolveSeg kfs (jsMod t (totalDurationOf kfs))).map
    (fun seg => seg.startKf.easing.getD .linear)).getD .linear

/-! ### Keyframe time editing (`Timeline` and `handleUpdateKeyframeTime`) -/

/-- `MIN_SEGMENT_DURATION` of `Timeline`: 100 ms. -/
def MIN_SEGMENT_DURATION : ℚ := 100

/-- `handleUpdateKeyframeTime` (`KeymapHelper.tsx`): overwrite the time of
the keyframe at `index` with `newTime` verbatim (a no-op when `index` is
out of range). -/
def updateKeyframeTime (kfs : List Keyframe) (index : ℕ) (newTime : ℚ) :
    List Keyframe :=
  match kfs[index]? with
  | some kf => kfs.set index { kf with time := newTime }
  | none => kfs

/-- The clamp computed inside `handleKeyframeMouseDown`'s mouse-move
handler (`Timeline`): raise `newTime` to `prevKeyframe.time +
MIN_SEGMENT_DURATION`, then cap it at `nextKeyframe.time -
MIN_SEGMENT_DURATION` (the cap is absent — `Infinity` in the source —
when there is no next keyframe). -/
def clampDragTime (kfs : List Keyframe) (index : ℕ) (newTime : ℚ) : ℚ :=
  let prevTime := ((kfs[index - 1]?).map Keyframe.time).getD 0
  let raised := max (prevTime + MIN_SEGMENT_DURATION) newTime
  match kfs[index + 1]? with
  | some nxt => min (nxt.time - MIN_SEGMENT_DURATION) raised
  | none => raised

/-- One mouse-move step of `handleKeyframeMouseDown`: index 0 never moves
(early return), any other index is clamped and then stored through
`handleUpdateKeyframeTime`. -/
def handleKeyframeDragMove (kfs : List Keyframe) (index : ℕ) (newTime : ℚ) :
    List Keyframe :=
  if index = 0 then kfs
  else updateKeyframeTime kfs index (clampDragTime kfs index newTime)

/-- Every adjacent pair of keyframe times is non-decreasing. -/
def timesSorted (kfs : List Keyframe) : Prop :=
  ∀ i, i + 1 < kfs.length →
    ((kfs[i]?).map Keyframe.time).getD 0 ≤ ((kfs[i + 1]?).map Keyframe.time).getD 0

/-! ### Playback/selection state (`useAnimationEngine` and the `App`
handlers) -/

/-- The slice of the `App` state that the playback/selection claims are
about. -/
structure UIState : Type where
  keyframes : List Keyframe
  isAnimating : Bool
  selectedKeyframeIndex : Option ℕ
  animationTime : ℚ
  pivotOffsets : Pose

/-- `play` of `useAnimationEngine`: no-op with fewer than 2 keyframes,
otherwise set `isAnimating`.  Nothing else is touched. -/
def play (s : UIState) : UIState :=
  if s.keyframes.length < 2 then s else { s with isAnimating := true }

/-- `pause` of `useAnimationEngine`: clear `isAnimating`. -/
def pause (s : UIState) : UIState := { s with isAnimating := false }

/-- `handleSelectKeyframe` (`KeymapHelper.tsx`): pause if animating, select
the index, apply the keyframe's pose and seek to its time (the source
indexes `keyframes[index]` directly; out-of-range indices are modelled as
leaving pose and time unchanged). -/
def handleSelectKeyframe (s : UIState) (index : ℕ) : UIState :=
  let s1 := if s.isAnimating then pause s else s
  match s.keyframes[index]? with
  | some kf =>
      { s1 with
        selectedKeyframeIndex := some index
        pivotOffsets := kf.pose
        animationTime := kf.time }
  | none => { s1 with selectedKeyframeIndex := some index }

/-! ### Undo/redo history (`saveToHistory`, `undo`, `redo`) -/

/-- `HistoryState` (`KeymapHelper.tsx`). -/
structure HistoryState : Type where
  pivotOffsets : Pose
  props : Proportions
  timestamp : ℕ
  label : Option String := none

/-- The slice of the `App` state that the history claims are about. -/
structure AppState : Type where
  pivotOffsets : Pose
  props : Proportions
  history : List HistoryState
  redoStack : List HistoryState
  isAnimating : Bool
  isTransitioning : Bool

/-- The snapshot `{pivotOffsets: {...pivotOffsets}, props: JSON-deep-copy,
timestamp: Date.now()}` taken by `saveToHistory`/`undo`/`redo`; copying is
the identity in the pure model. -/
def currentSnapshot (now : ℕ) (s : AppState) : HistoryState :=
  ⟨s.pivotOffsets, s.props, now, none⟩

/-- `saveToHistory`: keep the most recent 49 undo entries
(`prev.slice(-49)`), append the current snapshot, and clear the redo
stack. -/
def saveToHistory (now : ℕ) (s : AppState) : AppState :=
  { s with
    history := s.history.drop (s.history.length - 49) ++ [currentSnapshot now s]
    redoStack := [] }

/-- `undo`: no-op on an empty history or while animating/transitioning;
otherwise pop the last history entry, push the current snapshot onto the
front of the redo stack, and apply the popped pose and proportions. -/
def undo (now : ℕ) (s : AppState) : AppState :=
  match s.history.getLast? with
  | none => s
  | some previous =>
      if s.isAnimating ∨ s.isTransitioning then s
      else
        { s with
          redoStack := currentSnapshot now s :: s.redoStack
          history := s.history.dropLast
          pivotOffsets := previous.pivotOffsets
          props := previous.props }

/-- `redo`: the mirror of `undo` — no-op on an empty redo stack or while
animating/transitioning; otherwise shift the first redo entry, append the
current snapshot to the history, and apply the shifted pose and
proportions. -/
def redo (now : ℕ) (s : AppState) : AppState :=
  match s.redoStack with
  | [] => s
  | next :: rest =>
      if s.isAnimating ∨ s.isTransitioning then s
      else
        { s with
          history := s.history ++ [currentSnapshot now s]
          redoStack := rest
          pivotOffsets := next.pivotOffsets
          props := next.props }

/-! ### Chain-reaction propagation (`applyChainReaction`) -/

/-- `JOINT_CHILD_MAP` (`KeymapHelper.tsx`): the single-child adjacency. -/
def jointChildMap : JointKey → Option JointKey
  | .waist => some .torso
  | .torso => some .collar
  | .collar => some .neck
  | .l_shoulder => some .l_elbow
  | .l_elbow => some .l_hand
  | .r_shoulder => some .r_elbow
  | .r_elbow => some .r_hand
  | .l_hip => some .l_knee
  | .l_knee => some .l_foot
  | .l_foot => some .l_toe
  | .r_hip => some .r_knee
  | .r_knee => some .r_foot
  | .r_foot => some .r_toe
  | _ => none

/-- The child computation inside `applyChainReaction`'s loop: `waist` and
`collar` (and `torso`, redundantly) are special-cased multi-child
fan-outs; every other joint falls back to `JOINT_CHILD_MAP`. -/
def childrenOf (k : JointKey) : List JointKey :=
  if k = .waist then [.torso, .l_hip, .r_hip]
  else if k = .torso then [.collar]
  else if k = .collar then [.neck, .l_shoulder, .r_shoulder]
  else
    match jointChildMap k with
    | some c => [c]
    | none => []

/-- `ChainBehavior`-style per-joint configuration (`JointChainBehaviors`
values): optional bend factor `b`, stretch factor `s`, lead flag `l`. -/
structure ChainBehavior : Type where
  b : Option ℚ := none
  s : Option ℚ := none
  l : Bool := false

/-- `JointChainBehaviors`: a partial map from joints to behaviours. -/
def Behaviors : Type := JointKey → Option ChainBehavior

/-- `totalFactor = (behavior.b ?? 0) + (behavior.s ?? 0)` with
`behavior = jointChainBehaviors[childKey] || {}`. -/
def totalFactor (behaviors : Behaviors) (k : JointKey) : ℚ :=
  let beh := (behaviors k).getD {}
  beh.b.getD 0 + beh.s.getD 0

/-- Functional update of a pose at one joint. -/
def updatePose (p : Pose) (k : JointKey) (v : ℚ) : Pose :=
  fun j => if j = k then v else p j

/-- The body of the `for (const childKey of children)` loop inside
`applyChainReaction`: skip children already visited; skip (without
visiting) children whose `totalFactor` is 0; otherwise apply
`childDelta = currentDelta * totalFactor` to the child, mark it visited,
and record it (in order) for enqueueing.  Returns the enqueued children,
the updated visited set and the updated offsets. -/
def chainStep (behaviors : Behaviors) (pd : ℚ) :
    List JointKey → Finset JointKey → Pose →
    List JointKey × Finset JointKey × Pose
  | [], v, o => ([], v, o)
  | c :: rest, v, o =>
      if c ∈ v then chainStep behaviors pd rest v o
      else
        let f := totalFactor behaviors c
        if f = 0 then chainStep behaviors pd rest v o
        else
          let r := chainStep behaviors pd rest (insert c v)
            (updatePose o c (o c + pd * f))
          (c :: r.1, r.2.1, r.2.2)

/-- An instrumentation record of one applied propagation step: `child` was
reached from `parent`, which carried delta `parentDelta`; the delta
applied to `child` is `parentDelta * totalFactor child` (spec §8 sanctions
instrumented write counts for verification). -/
structure LogEntry : Type where
  parent : JointKey
  child : JointKey
  parentDelta : ℚ

theorem chainStep_card (behaviors : Behaviors) (pd : ℚ) :
    ∀ (cs : List JointKey) (v : Finset JointKey) (o : Pose),
      (chainStep behaviors pd cs v o).2.1.card =
        v.card + (chainStep behaviors pd cs v o).1.length := by
  intro cs
  induction cs with
  | nil => intro v o; simp [chainStep]
  | cons c rest ih =>
      intro v o
      by_cases hv : c ∈ v
      · simp [chainStep, hv, ih]
      · by_cases hf : totalFactor behaviors c = 0
        · simp [chainStep, hv, hf, ih]
        · simp only [chainStep, if_neg hv, if_neg hf]
          rw [ih]
          rw [Finset.card_insert_of_not_mem hv]
          simp [Nat.add_comm, Nat.add_assoc, Nat.add_left_comm]

/-- The `while (queue.length > 0)` loop of `applyChainReaction`, with the
visited set and an instrumentation log threaded through.  Each iteration
shifts `(currentKey, currentDelta)` off the queue, processes its children
with `chainStep`, pushes the freshly visited children (with their own
deltas) onto the back of the queue and appends them to the log. -/
def chainLoop (behaviors : Behaviors) :
    List (JointKey × ℚ) → Finset JointKey → Pose → List LogEntry →
    Pose × Finset JointKey × List LogEntry
  | [], v, o, log => (o, v, log)
  | (k, d) :: rest, v, o, log =>
      let r := chainStep behaviors d (childrenOf k) v o
      chainLoop behaviors
        (rest ++ r.1.map (fun c => (c, d * totalFactor behaviors c)))
        r.2.1 r.2.2
        (log ++ r.1.map (fun c => ⟨k, c, d⟩))
  termination_by q v _ _ => 2 * (Fintype.card JointKey - v.card) + q.length
  decreasing_by
    have hcard := chainStep_card behaviors d (childrenOf k) v o
    have hle : (chainStep behaviors d (childrenOf k) v o).2.1.card ≤
        Fintype.card JointKey := Finset.card_le_univ _
    simp only [List.length_append, List.length_map, List.length_cons]
    omega

/-- `applyChainReaction` with its instrumentation: returns the final
offsets, the final visited set and the write log.  The queue starts with
`[(startingKey, delta)]` and the visited set is seeded with
`startingKey`. -/
def chainReactionFull (behaviors : Behaviors) (startingKey : JointKey)
    (delta : ℚ) (initialOffsets : Pose) :
    Pose × Finset JointKey × List LogEntry :=
  chainLoop behaviors [(startingKey, delta)] {startingKey} initialOffsets []

/-- `applyChainReaction` (`KeymapHelper.tsx`): the returned pose. -/
def applyChainReaction (behaviors : Behaviors) (startingKey : JointKey)
    (delta : ℚ) (initialOffsets : Pose) : Pose :=
  (chainReactionFull behaviors startingKey delta initialOffsets).1

/-- The strict descendants of each joint under `childrenOf` (the table is
spelled out; its closure and acyclicity properties are proved by
`decide` against `childrenOf`). -/
def descTable : JointKey → List JointKey
  | .waist => [.torso, .collar, .neck, .l_shoulder, .l_elbow, .l_hand,
      .r_shoulder, .r_elbow, .r_hand, .l_hip, .l_knee, .l_foot, .l_toe,
      .r_hip, .r_knee, .r_foot, .r_toe]
  | .torso => [.collar, .neck, .l_shoulder, .l_elbow, .l_hand,
      .r_shoulder, .r_elbow, .r_hand]
  | .collar => [.neck, .l_shoulder, .l_elbow, .l_hand,
      .r_shoulder, .r_elbow, .r_hand]
  | .neck => []
  | .l_shoulder => [.l_elbow, .l_hand]
  | .l_elbow => [.l_hand]
  | .l_hand => []
  | .r_shoulder => [.r_elbow, .r_hand]
  | .r_elbow => [.r_hand]
  | .r_hand => []
  | .l_hip => [.l_knee, .l_foot, .l_toe]
  | .l_knee => [.l_foot, .l_toe]
  | .l_foot => [.l_toe]
  | .l_toe => []
  | .r_hip => [.r_knee, .r_foot, .r_toe]
  | .r_knee => [.r_foot, .r_toe]
  | .r_foot => [.r_toe]
  | .r_toe => []

/-! ### Two-bone IK (`solveTwoBoneIK`) -/

/-- A 2D point/vector over `ℝ`. -/
structure Vec2R : Type where
  x : ℝ
  y : ℝ

/-- Euclidean distance between two points. -/
noncomputable def dist2 (a b : Vec2R) : ℝ :=
  Real.sqrt ((a.x - b.x) ^ 2 + (a.y - b.y) ^ 2)

/-- The reachability margin `ε` of the solver's distance clamp. -/
noncomputable def IK_EPSILON : ℝ := 1 / 100

/-- The solver's angle pair `{angle1, angle2}`. -/
structure IKResult : Type where
  angle1 : ℝ
  angle2 : ℝ

/-- Modelled from the spec: `solveTwoBoneIK` of the missing
`utils/kinematics` (angles in radians here; the spec fixes no unit).
Law of cosines on the triangle (root, target, chain-end); the
root-to-target distance is clamped to `min(actualDistance, lenA + lenB -
ε)` before the trig computation; the bend direction is chosen from
`isMirrored`; `angle1` is expressed relative to `parentWorldRotation` and
`angle2` relative to the first bone; a target within `ε` of the root
(degenerate case) returns the neutral pair `(0, 0)` instead of dividing
by zero. -/
noncomputable def solveTwoBoneIK (target rootPos : Vec2R)
    (lenA lenB parentWorldRotation : ℝ) (isMirrored : Bool) : IKResult :=
  let dx := target.x - rootPos.x
  let dy := target.y - rootPos.y
  let rawDist := Real.sqrt (dx ^ 2 + dy ^ 2)
  if rawDist < IK_EPSILON then ⟨0, 0⟩
  else
    let d := min rawDist (lenA + lenB - IK_EPSILON)
    let baseAngle := Complex.arg ⟨dx, dy⟩
    let bendSign : ℝ := if isMirrored then 1 else -1
    let cosShoulder := (lenA ^ 2 + d ^ 2 - lenB ^ 2) / (2 * lenA * d)
    let cosElbow := (lenA ^ 2 + lenB ^ 2 - d ^ 2) / (2 * lenA * lenB)
    ⟨baseAngle + bendSign * Real.arccos cosShoulder - parentWorldRotation,
     bendSign * (Real.arccos cosElbow - Real.pi)⟩

/-- Forward-kinematic reconstruction of the chain end from the solver's
angle pair: bone A at world angle `parentWorldRotation + angle1`, bone B
at that angle plus `angle2`. -/
noncomputable def fkEnd (rootPos : Vec2R) (lenA lenB parentWorldRotation : ℝ)
    (r : IKResult) : Vec2R :=
  ⟨rootPos.x + lenA * Real.cos (parentWorldRotation + r.angle1)
      + lenB * Real.cos (parentWorldRotation + r.angle1 + r.angle2),
   rootPos.y + lenA * Real.sin (parentWorldRotation + r.angle1)
      + lenB * Real.sin (parentWorldRotation + r.angle1 + r.angle2)⟩

/-! ### Properties of `chainStep` -/

theorem chainStep_visited_subset (b : Behaviors) (pd : ℚ) :
    ∀ (cs : List JointKey) (v : Finset JointKey) (o : Pose),
      v ⊆ (chainStep b pd cs v o).2.1 := by
  intro cs
  induction cs with
  | nil => intro v o; simp [chainStep]
  | cons c rest ih =>
      intro v o
      by_cases hv : c ∈ v
      · simpa [chainStep, hv] using ih v o
      · by_cases hf : totalFactor b c = 0
        · simpa [chainStep, hv, hf] using ih v o
        · simp only [chainStep, if_neg hv, if_neg hf]
          exact fun j hj => ih _ _ (Finset.mem_insert_of_mem hj)

theorem chainStep_new_not_mem (b : Behaviors) (pd : ℚ) :
    ∀ (cs : List JointKey) (v : Finset JointKey) (o : Pose),
      ∀ c ∈ (chainStep b pd cs v o).1, c ∉ v := by
  intro cs
  induction cs with
  | nil => intro v o; simp [chainStep]
  | cons c rest ih =>
      intro v o
      by_cases hv : c ∈ v
      · simpa [chainStep, hv] using ih v o
      · by_cases hf : totalFactor b c = 0
        · simpa [chainStep, hv, hf] using ih v o
        · simp only [chainStep, if_neg hv, if_neg hf, List.mem_cons]
          rintro c' (rfl | hc')
          · exact hv
          · intro hc'v
            exact ih _ _ c' hc' (Finset.mem_insert_of_mem hc'v)

theorem chainStep_new_nodup (b : Behaviors) (pd : ℚ) :
    ∀ (cs : List JointKey) (v : Finset JointKey) (o : Pose),
      (chainStep b pd cs v o).1.Nodup := by
  intro cs
  induction cs with
  | nil => intro v o; simp [chainStep]
  | cons c rest ih =>
      intro v o
      by_cases hv : c ∈ v
      · simpa [chainStep, hv] using ih v o
      · by_cases hf : totalFactor b c = 0
        · simpa [chainStep, hv, hf] using ih v o
        · simp only [chainStep, if_neg hv, if_neg hf, List.nodup_cons]
          refine ⟨fun hc => ?_, ih _ _⟩
          exact chainStep_new_not_mem b pd rest _ _ c hc (Finset.mem_insert_self c v)

theorem chainStep_mem_visited (b : Behaviors) (pd : ℚ) :
    ∀ (cs : List JointKey) (v : Finset JointKey) (o : Pose) (j : JointKey),
      j ∈ (chainStep b pd cs v o).2.1 ↔ j ∈ v ∨ j ∈ (chainStep b pd cs v o).1 := by
  intro cs
  induction cs with
  | nil => intro v o j; simp [chainStep]
  | cons c rest ih =>
      intro v o j
      by_cases hv : c ∈ v
      · simpa [chainStep, hv] using ih v o j
      · by_cases hf : totalFactor b c = 0
        · simpa [chainStep, hv, hf] using ih v o j
        · simp only [chainStep, if_neg hv, if_neg hf, List.mem_cons]
          rw [ih]
          simp [Finset.mem_insert]
          tauto

theorem chainStep_new_sub (b : Behaviors) (pd : ℚ) :
    ∀ (cs : List JointKey) (v : Finset JointKey) (o : Pose),
      ∀ c ∈ (chainStep b pd cs v o).1, c ∈ cs := by
  intro cs
  induction cs with
  | nil => intro v o; simp [chainStep]
  | cons c rest ih =>
      intro v o
      by_cases hv : c ∈ v
      · intro c' hc'
        simp only [chainStep, if_pos hv] at hc'
        exact List.mem_cons_of_mem _ (ih v o c' hc')
      · by_cases hf : totalFactor b c = 0
        · intro c' hc'
          simp only [chainStep, if_neg hv, if_pos hf] at hc'
          exact List.mem_cons_of_mem _ (ih v o c' hc')
        · simp only [chainStep, if_neg hv, if_neg hf, List.mem_cons]
          rintro c' (rfl | hc')
          · exact Or.inl rfl
          · exact Or.inr (ih _ _ c' hc')

theorem chainStep_new_factor (b : Behaviors) (pd : ℚ) :
    ∀ (cs : List JointKey) (v : Finset JointKey) (o : Pose),
      ∀ c ∈ (chainStep b pd cs v o).1, totalFactor b c ≠ 0 := by
  intro cs
  induction cs with
  | nil => intro v o; simp [chainStep]
  | cons c rest ih =>
      intro v o
      by_cases hv : c ∈ v
      · simpa [chainStep, hv] using ih v o
      · by_cases hf : totalFactor b c = 0
        · simpa [chainStep, hv, hf] using ih v o
        · simp only [chainStep, if_neg hv, if_neg hf, List.mem_cons]
          rintro c' (rfl | hc')
          · exact hf
          · exact ih _ _ c' hc'

theorem chainStep_offsets_stable (b : Behaviors) (pd : ℚ) :
    ∀ (cs : List JointKey) (v : Finset JointKey) (o : Pose),
      ∀ j, j ∉ (chainStep b pd cs v o).1 → (chainStep b pd cs v o).2.2 j = o j := by
  intro cs
  induction cs with
  | nil => intro v o; simp [chainStep]
  | cons c rest ih =>
      intro v o
      by_cases hv : c ∈ v
      · simpa [chainStep, hv] using ih v o
      · by_cases hf : totalFactor b c = 0
        · simpa [chainStep, hv, hf] using ih v o
        · simp only [chainStep, if_neg hv, if_neg hf, List.mem_cons]
          intro j hj
          push_neg at hj
          rw [ih _ _ j hj.2]
          simp [updatePose, hj.1]

theorem chainStep_offsets_new (b : Behaviors) (pd : ℚ) :
    ∀ (cs : List JointKey) (v : Finset JointKey) (o : Pose),
      ∀ c ∈ (chainStep b pd cs v o).1,
        (chainStep b pd cs v o).2.2 c = o c + pd * totalFactor b c := by
  intro cs
  induction cs with
  | nil => intro v o; simp [chainStep]
  | cons c rest ih =>
      intro v o
      by_cases hv : c ∈ v
      · simpa [chainStep, hv] using ih v o
      · by_cases hf : totalFactor b c = 0
        · simpa [chainStep, hv, hf] using ih v o
        · simp only [chainStep, if_neg hv, if_neg hf, List.mem_cons]
          rintro c' (rfl | hc')
          · have hnot : c' ∉ (chainStep b pd rest (insert c' v)
                (updatePose o c' (o c' + pd * totalFactor b c'))).1 :=
              fun hc => chainStep_new_not_mem b pd rest _ _ c' hc
                (Finset.mem_insert_self c' v)
            rw [chainStep_offsets_stable b pd rest _ _ c' hnot]
            simp [updatePose]
          · have hne : c' ≠ c := by
              intro h
              exact chainStep_new_not_mem b pd rest _ _ c' hc'
                (h ▸ Finset.mem_insert_self c v)
            rw [ih _ _ c' hc']
            simp [updatePose, hne]

theorem chainStep_closure (b : Behaviors) (pd : ℚ) :
    ∀ (cs : List JointKey) (v : Finset JointKey) (o : Pose),
      ∀ c ∈ cs, totalFactor b c ≠ 0 → c ∈ (chainStep b pd cs v o).2.1 := by
  intro cs
  induction cs with
  | nil => intro v o; simp
  | cons c rest ih =>
      intro v o
      by_cases hv : c ∈ v
      · simp only [chainStep, if_pos hv, List.mem_cons]
        rintro c' (rfl | hc') hf'
        · exact chainStep_visited_subset b pd rest v o hv
        · exact ih v o c' hc' hf'
      · by_cases hf : totalFactor b c = 0
        · simp only [chainStep, if_neg hv, if_pos hf, List.mem_cons]
          rintro c' (rfl | hc') hf'
          · exact absurd hf hf'
          · exact ih v o c' hc' hf'
        · simp only [chainStep, if_neg hv, if_neg hf, List.mem_cons]
          rintro c' (rfl | hc') hf'
          · exact chainStep_visited_subset b pd rest _ _
              (Finset.mem_insert_self c' v)
          · exact ih _ _ c' hc' hf'

/-! ### Properties of `chainLoop` -/

theorem chainLoop_visited_subset (b : Behaviors) :
    ∀ (q : List (JointKey × ℚ)) (v : Finset JointKey) (o : Pose)
      (log : List LogEntry), v ⊆ (chainLoop b q v o log).2.1 := by
  intro q v o log
  induction q, v, o, log using chainLoop.induct b with
  | case1 v o log => simp [chainLoop]
  | case2 k d rest v o log r =>
      rename_i ih
      rw [chainLoop]
      exact fun j hj => ih (chainStep_visited_subset b d (childrenOf k) v o hj)

theorem chainLoop_visited_stable (b : Behaviors) :
    ∀ (q : List (JointKey × ℚ)) (v : Finset JointKey) (o : Pose)
      (log : List LogEntry), ∀ j ∈ v, (chainLoop b q v o log).1 j = o j := by
  intro q v o log
  induction q, v, o, log using chainLoop.induct b with
  | case1 v o log => simp [chainLoop]
  | case2 k d rest v o log r =>
      rename_i ih
      intro j hj
      rw [chainLoop]
      rw [ih j (chainStep_visited_subset b d (childrenOf k) v o hj)]
      exact chainStep_offsets_stable b d (childrenOf k) v o j
        (fun hn => chainStep_new_not_mem b d (childrenOf k) v o j hn hj)

/-- Writes are confined: if a predicate `Q` marks joints that are not in
the queue and cannot be reached from outside (every propagating child of
a non-`Q` joint is non-`Q`), then every `Q` joint keeps its offset. -/
theorem chainLoop_confined (b : Behaviors) (Q : JointKey → Prop)
    (hQ : ∀ k c, ¬ Q k → c ∈ childrenOf k → totalFactor b c ≠ 0 → ¬ Q c) :
    ∀ (q : List (JointKey × ℚ)) (v : Finset JointKey) (o : Pose)
      (log : List LogEntry), (∀ p ∈ q, ¬ Q p.1) →
      ∀ j, Q j → (chainLoop b q v o log).1 j = o j := by
  intro q v o log
  induction q, v, o, log using chainLoop.induct b with
  | case1 v o log => simp [chainLoop]
  | case2 k d rest v o log r =>
      rename_i ih
      intro hq j hj
      have hk : ¬ Q k := hq (k, d) (List.mem_cons_self _ _)
      have hnew : ∀ c ∈ (chainStep b d (childrenOf k) v o).1, ¬ Q c := by
        intro c hc
        exact hQ k c hk (chainStep_new_sub b d (childrenOf k) v o c hc)
          (chainStep_new_factor b d (childrenOf k) v o c hc)
      rw [chainLoop]
      rw [ih ?_ j hj]
      · exact chainStep_offsets_stable b d (childrenOf k) v o j
          (fun hn => hnew j hn hj)
      · intro p hp
        rcases List.mem_append.mp hp with hp | hp
        · exact hq p (List.mem_cons_of_mem _ hp)
        · rcases List.mem_map.mp hp with ⟨c, hc, rfl⟩
          exact hnew c hc

/-- The loop invariant of `applyChainReaction`'s worklist, relating the
queue, the visited set, the offsets and the instrumentation log to the
initial offsets and the starting delta. -/
structure LoopInv (b : Behaviors) (start : JointKey) (δ : ℚ) (init : Pose)
    (q : List (JointKey × ℚ)) (v : Finset JointKey) (o : Pose)
    (log : List LogEntry) : Prop where
  nodup : (log.map LogEntry.child).Nodup
  logVisited : ∀ e ∈ log, e.child ∈ v
  queueVisited : ∀ p ∈ q, p.1 ∈ v
  logChild : ∀ e ∈ log, e.child ∈ childrenOf e.parent
  logFactor : ∀ e ∈ log, totalFactor b e.child ≠ 0
  logVal : ∀ e ∈ log,
    o e.child = init e.child + e.parentDelta * totalFactor b e.child
  unlogged : ∀ j, j ∉ log.map LogEntry.child → o j = init j
  queueProv : ∀ p ∈ q, (p.1 = start ∧ p.2 = δ) ∨
    ∃ e ∈ log, e.child = p.1 ∧ p.2 = e.parentDelta * totalFactor b e.child
  logProv : ∀ e ∈ log, (e.parent = start ∧ e.parentDelta = δ) ∨
    ∃ e2 ∈ log, e2.child = e.parent ∧
      e.parentDelta = e2.parentDelta * totalFactor b e2.child
  closure : ∀ k ∈ v, (∃ d, (k, d) ∈ q) ∨
    ∀ c ∈ childrenOf k, totalFactor b c ≠ 0 → c ∈ v

theorem LoopInv.step (b : Behaviors) (start : JointKey) (δ : ℚ) (init : Pose)
    (k : JointKey) (d : ℚ) (rest : List (JointKey × ℚ)) (v : Finset JointKey)
    (o : Pose) (log : List LogEntry)
    (h : LoopInv b start δ init ((k, d) :: rest) v o log) :
    LoopInv b start δ init
      (rest ++ (chainStep b d (childrenOf k) v o).1.map
        (fun c => (c, d * totalFactor b c)))
      (chainStep b d (childrenOf k) v o).2.1
      (chainStep b d (childrenOf k) v o).2.2
      (log ++ (chainStep b d (childrenOf k) v o).1.map
        (fun c => ⟨k, c, d⟩)) := by
  have hnm := chainStep_new_not_mem b d (childrenOf k) v o
  have hsub := chainStep_visited_subset b d (childrenOf k) v o
  have hmem := chainStep_mem_visited b d (childrenOf k) v o
  have hlogv : ∀ x ∈ log.map LogEntry.child, x ∈ v := by
    intro x hx
    rcases List.mem_map.mp hx with ⟨e, he, rfl⟩
    exact h.logVisited e he
  constructor
  · simp only [List.map_append, List.map_map]
    have hmm : (chainStep b d (childrenOf k) v o).1.map
        (LogEntry.child ∘ fun c => (⟨k, c, d⟩ : LogEntry)) =
        (chainStep b d (childrenOf k) v o).1 := by
      simp [Function.comp_def]
    rw [hmm]
    refine List.Nodup.append h.nodup (chainStep_new_nodup b d (childrenOf k) v o) ?_
    intro x hx hx'
    exact hnm x hx' (hlogv x hx)
  · intro e he
    rcases List.mem_append.mp he with he | he
    · exact hsub (h.logVisited e he)
    · rcases List.mem_map.mp he with ⟨c, hc, rfl⟩
      exact (hmem c).mpr (Or.inr hc)
  · intro p hp
    rcases List.mem_append.mp hp with hp | hp
    · exact hsub (h.queueVisited p (List.mem_cons_of_mem _ hp))
    · rcases List.mem_map.mp hp with ⟨c, hc, rfl⟩
      exact (hmem c).mpr (Or.inr hc)
  · intro e he
    rcases List.mem_append.mp he with he | he
    · exact h.logChild e he
    · rcases List.mem_map.mp he with ⟨c, hc, rfl⟩
      exact chainStep_new_sub b d (childrenOf k) v o c hc
  · intro e he
    rcases List.mem_append.mp he with he | he
    · exact h.logFactor e he
    · rcases List.mem_map.mp he with ⟨c, hc, rfl⟩
      exact chainStep_new_factor b d (childrenOf k) v o c hc
  · intro e he
    rcases List.mem_append.mp he with he | he
    · rw [chainStep_offsets_stable b d (childrenOf k) v o e.child
        (fun hn => hnm e.child hn (h.logVisited e he))]
      exact h.logVal e he
    · rcases List.mem_map.mp he with ⟨c, hc, rfl⟩
      rw [chainStep_offsets_new b d (childrenOf k) v o c hc]
      rw [h.unlogged c (fun hx => hnm c hc (hlogv c hx))]
  · intro j hj
    simp only [List.map_append, List.map_map, List.mem_append] at hj
    push_neg at hj
    have hj2 : j ∉ (chainStep b d (childrenOf k) v o).1 := by
      intro hn
      exact hj.2 (List.mem_map.mpr ⟨j, hn, rfl⟩)
    rw [chainStep_offsets_stable b d (childrenOf k) v o j hj2]
    exact h.unlogged j hj.1
  · intro p hp
    rcases List.mem_append.mp hp with hp | hp
    · rcases h.queueProv p (List.mem_cons_of_mem _ hp) with hl | ⟨e, he, h1, h2⟩
      · exact Or.inl hl
      · exact Or.inr ⟨e, List.mem_append_left _ he, h1, h2⟩
    · rcases List.mem_map.mp hp with ⟨c, hc, rfl⟩
      exact Or.inr ⟨⟨k, c, d⟩, List.mem_append_right _
        (List.mem_map.mpr ⟨c, hc, rfl⟩), rfl, rfl⟩
  · intro e he
    rcases List.mem_append.mp he with he | he
    · rcases h.logProv e he with hl | ⟨e2, he2, h1, h2⟩
      · exact Or.inl hl
      · exact Or.inr ⟨e2, List.mem_append_left _ he2, h1, h2⟩
    · rcases List.mem_map.mp he with ⟨c, hc, rfl⟩
      rcases h.queueProv (k, d) (List.mem_cons_self _ _) with hl | ⟨e2, he2, h1, h2⟩
      · exact Or.inl hl
      · exact Or.inr ⟨e2, List.mem_append_left _ he2, h1, h2⟩
  · intro k' hk'
    rcases (hmem k').mp hk' with hk' | hk'
    · rcases h.closure k' hk' with ⟨d', hd'⟩ | hcl
      · rcases List.mem_cons.mp hd' with heq | hd'
        · have hkk : k' = k := congrArg Prod.fst heq
          subst hkk
          exact Or.inr (chainStep_closure b d (childrenOf k') v o)
        · exact Or.inl ⟨d', List.mem_append_left _ hd'⟩
      · exact Or.inr (fun c hc hf => hsub (hcl c hc hf))
    · exact Or.inl ⟨d * totalFactor b k',
        List.mem_append_right _ (List.mem_map.mpr ⟨k', hk', rfl⟩)⟩

theorem chainLoop_inv (b : Behaviors) (start : JointKey) (δ : ℚ) (init : Pose) :
    ∀ (q : List (JointKey × ℚ)) (v : Finset JointKey) (o : Pose)
      (log : List LogEntry), LoopInv b start δ init q v o log →
      LoopInv b start δ init [] (chainLoop b q v o log).2.1
        (chainLoop b q v o log).1 (chainLoop b q v o log).2.2 := by
  intro q v o log
  induction q, v, o, log using chainLoop.induct b with
  | case1 v o log =>
      intro h
      simpa [chainLoop] using h
  | case2 k d rest v o log r =>
      rename_i ih
      intro h
      rw [chainLoop]
      exact ih (LoopInv.step b start δ init k d rest v o log h)

theorem chainReactionFull_inv (b : Behaviors) (start : JointKey) (δ : ℚ)
    (init : Pose) :
    LoopInv b start δ init [] (chainReactionFull b start δ init).2.1
      (chainReactionFull b start δ init).1
      (chainReactionFull b start δ init).2.2 := by
  refine chainLoop_inv b start δ init _ _ _ _ ?_
  constructor <;> simp

/-! ### Facts about the joint tree, proved by `decide` against
`childrenOf` -/

theorem desc_child : ∀ a c : JointKey, c ∈ childrenOf a → c ∈ descTable a := by
  decide

theorem desc_closure : ∀ a k c : JointKey,
    k ∈ descTable a → c ∈ childrenOf k → c ∈ descTable a := by
  decide

theorem desc_unique_parent : ∀ j k c : JointKey,
    c ∈ childrenOf k → c ∈ descTable j → k = j ∨ k ∈ descTable j := by
  decide

theorem desc_acyclic : ∀ a c : JointKey,
    c ∈ descTable a → a ≠ c ∧ a ∉ descTable c := by
  decide

/-! ### Concrete fixtures used by witnesses and counterexamples -/

/-- `ATOMIC_PROPS`: every part at scale `{w: 1, h: 1}`. -/
def atomicProps : Proportions := fun _ => (1, 1)

/-- A pose that bends the left elbow to 90 degrees. -/
def elbowPose : Pose := fun k => if k = .l_elbow then 90 else 0

/-- Two keyframes (times 0 and 1000), the first with ease-out easing. -/
def kfsEaseOut : List Keyframe :=
  [⟨"kf-1", tPose, 0, some .easeOut⟩, ⟨"kf-2", elbowPose, 1000, none⟩]

/-- Two keyframes (times 0 and 1000) with default (linear) easing. -/
def kfsLinear : List Keyframe :=
  [⟨"kf-1", tPose, 0, none⟩, ⟨"kf-2", elbowPose, 1000, none⟩]

/-- Three keyframes at the spec's example times 0, 1000, 2000. -/
def kfsThree : List Keyframe :=
  [⟨"kf-1", tPose, 0, none⟩, ⟨"kf-2", elbowPose, 1000, none⟩,
   ⟨"kf-3", tPose, 2000, none⟩]

/-- Behaviours giving `torso` bend factor 1 and every other joint none. -/
def torsoBend : Behaviors := fun k =>
  if k = .torso then some { b := some 1 } else none

/-- The all-unset behaviour configuration. -/
def noBehaviors : Behaviors := fun _ => none

/-! ## The claims -/

/-- **C1, counterexample**: scrubbing and the playback loop disagree on a
segment whose starting keyframe uses ease-out easing: at t = 500 on
keyframes (0 ms, easing ease-out, all joints 0°) and (1000 ms, `l_elbow`
90°), `handleScrub` commits `l_elbow = 45°` (raw progress 1/2) while
`runAnimationLoop`'s `poseAt` yields `l_elbow = 78.75°` (eased progress
7/8) — seeking while paused does not apply the starting keyframe's easing
function. -/
theorem scrub_skips_easing_counterexample :
    (scrubPose kfsEaseOut 500).map (fun p => p .l_elbow) = some 45 ∧
    (animPoseAt kfsEaseOut 500).map (fun p => p .l_elbow) = some (315 / 4) ∧
    (45 : ℚ) ≠ 315 / 4 := by
  refine ⟨?_, ?_, by norm_num⟩
  · norm_num [scrubPose, kfsEaseOut, lastTime, LOOP_DURATION, jsMod, resolveSeg,
      findSeg, progressOf, lerpAngleShortestPath, elbowPose, tPose]
  · norm_num [animPoseAt, totalDurationOf, kfsEaseOut, lastTime, LOOP_DURATION,
      jsMod, resolveSeg, findSeg, progressOf, lerpAngleShortestPath, elbowPose,
      tPose, applyEasing, easeOutCubic]

/-- **C1, amended**: scrubbing while not playing resolves the same segment
and wraps time the same way as the playback loop's `poseAt`, but applies
the raw linear progress; the two paths therefore produce the same pose
exactly when the resolved starting keyframe's easing is linear (or
unset). -/
theorem scrub_matches_playback_on_linear (kfs : List Keyframe) (t : ℚ)
    (h2 : 2 ≤ kfs.length) (hT : 0 < lastTime kfs + LOOP_DURATION)
    (hE : resolvedEasing kfs t = .linear) :
    scrubPose kfs t = animPoseAt kfs t := by
  have hlen : ¬ kfs.length < 2 := by omega
  have htot : totalDurationOf kfs = lastTime kfs + LOOP_DURATION := by
    simp [totalDurationOf, hlen]
  have hor : ¬ (kfs.length < 2 ∨ totalDurationOf kfs = 0) := by
    push_neg
    exact ⟨h2, by rw [htot]; exact ne_of_gt hT⟩
  rw [scrubPose, if_neg hlen, if_neg (not_le.mpr hT), animPoseAt, if_neg hor,
    htot]
  cases hseg : resolveSeg kfs (jsMod t (lastTime kfs + LOOP_DURATION)) with
  | none => simp [hseg]
  | some seg =>
      have hEs : seg.startKf.easing.getD .linear = .linear := by
        rw [resolvedEasing, htot, hseg] at hE
        simpa using hE
      simp only [hseg, Option.map_some', hEs]
      rfl

theorem scrub_matches_playback_on_linear_witness :
    (2 ≤ kfsLinear.length ∧ 0 < lastTime kfsLinear + LOOP_DURATION ∧
      resolvedEasing kfsLinear 250 = .linear) ∧
    scrubPose kfsLinear 250 = animPoseAt kfsLinear 250 := by
  have h2 : 2 ≤ kfsLinear.length := by norm_num [kfsLinear]
  have hT : 0 < lastTime kfsLinear + LOOP_DURATION := by
    norm_num [kfsLinear, lastTime, LOOP_DURATION]
  have hE : resolvedEasing kfsLinear 250 = .linear := by
    norm_num [resolvedEasing, kfsLinear, totalDurationOf, lastTime,
      LOOP_DURATION, jsMod, resolveSeg, findSeg]
  exact ⟨⟨h2, hT, hE⟩, scrub_matches_playback_on_linear kfsLinear 250 h2 hT hE⟩

/-- **C2, counterexample**: `handleUpdateKeyframeTime` — the point of
mutation — stores the requested time verbatim: with keyframes at 0, 1000,
2000 ms, updating keyframe 1 to 2500 stores 2500 (not the claimed clamp
to 1900), and updating keyframe 0 to 500 moves the supposedly immutable
first keyframe. -/
theorem keyframe_time_mutation_unclamped :
    ((updateKeyframeTime kfsThree 1 2500).map Keyframe.time = [0, 2500, 2000] ∧
      ¬ (2500 : ℚ) ≤ 2000 - MIN_SEGMENT_DURATION) ∧
    (updateKeyframeTime kfsThree 0 500).map Keyframe.time = [500, 1000, 2000] := by
  refine ⟨⟨?_, by norm_num [MIN_SEGMENT_DURATION]⟩, ?_⟩ <;>
    norm_num [updateKeyframeTime, kfsThree, List.set]

/-- **C2, amended**: the clamp lives in the Timeline drag handler, not in
the mutation: `handleKeyframeMouseDown` never moves index 0 and passes
`min(next.time − 100, max(prev.time + 100, newTime))` (no upper cap
without a next keyframe) to `handleUpdateKeyframeTime`, which stores it
verbatim.  Through this drag path the stored time stays in
`[prev + 100, next − 100]` — the lower bound provided the neighbours are
at least 200 ms apart — all other keyframes are untouched, and
non-decreasing times are preserved. -/
theorem keyframe_drag_clamp (kfs : List Keyframe) (index : ℕ) (raw : ℚ)
    (h1 : index ≠ 0) (h2 : index < kfs.length)
    (hwin : ∀ nxt ∈ kfs[index + 1]?,
      ((kfs[index - 1]?).map Keyframe.time).getD 0 + 2 * MIN_SEGMENT_DURATION ≤
        nxt.time) :
    (∀ i, i ≠ index → (handleKeyframeDragMove kfs index raw)[i]? = kfs[i]?) ∧
    ((handleKeyframeDragMove kfs index raw)[index]?).map Keyframe.time =
      some (clampDragTime kfs index raw) ∧
    ((kfs[index - 1]?).map Keyframe.time).getD 0 + MIN_SEGMENT_DURATION ≤
      clampDragTime kfs index raw ∧
    (∀ nxt ∈ kfs[index + 1]?,
      clampDragTime kfs index raw ≤ nxt.time - MIN_SEGMENT_DURATION) ∧
    (timesSorted kfs → timesSorted (handleKeyframeDragMove kfs index raw)) := by
  obtain ⟨kf, hkf⟩ : ∃ kf, kfs[index]? = some kf :=
    ⟨kfs.get ⟨index, h2⟩, List.getElem?_eq_getElem h2⟩
  have hmove : handleKeyframeDragMove kfs index raw =
      kfs.set index { kf with time := clampDragTime kfs index raw } := by
    rw [handleKeyframeDragMove, if_neg h1, updateKeyframeTime, hkf]
  have hother : ∀ i, i ≠ index →
      (handleKeyframeDragMove kfs index raw)[i]? = kfs[i]? := by
    intro i hi
    rw [hmove]
    exact List.getElem?_set_ne (Ne.symm hi)
  have hat : ((handleKeyframeDragMove kfs index raw)[index]?).map Keyframe.time =
      some (clampDragTime kfs index raw) := by
    rw [hmove, List.getElem?_set_eq_of_lt _ (by simpa using h2)]
    rfl
  have hlow : ((kfs[index - 1]?).map Keyframe.time).getD 0 +
      MIN_SEGMENT_DURATION ≤ clampDragTime kfs index raw := by
    rw [clampDragTime]
    cases hnx : kfs[index + 1]? with
    | none => exact le_max_left _ _
    | some nxt =>
        have := hwin nxt hnx
        simp only
        refine le_min (by linarith [this]) (le_max_left _ _)
  have hhigh : ∀ nxt ∈ kfs[index + 1]?,
      clampDragTime kfs index raw ≤ nxt.time - MIN_SEGMENT_DURATION := by
    intro nxt hnx
    rw [clampDragTime, hnx]
    exact min_le_left _ _
  refine ⟨hother, hat, hlow, hhigh, ?_⟩
  intro hs i hilen
  have hlen' : (handleKeyframeDragMove kfs index raw).length = kfs.length := by
    rw [hmove, List.length_set]
  rw [hlen'] at hilen
  rcases Nat.lt_trichotomy (i + 1) index with hlt | heq | hgt
  · rw [hother i (by omega), hother (i + 1) (by omega)]
    exact hs i hilen
  · -- the pair (index - 1, index)
    have hi : i = index - 1 := by omega
    rw [hother i (by omega)]
    have hmap : ((handleKeyframeDragMove kfs index raw)[i + 1]?).map
        Keyframe.time = some (clampDragTime kfs index raw) := by
      rw [heq]; exact hat
    have : ((kfs[index - 1]?).map Keyframe.time).getD 0 ≤
        clampDragTime kfs index raw := by
      have h100 : (0 : ℚ) < MIN_SEGMENT_DURATION := by
        norm_num [MIN_SEGMENT_DURATION]
      linarith [hlow]
    rw [hmap]
    simpa [hi] using this
  · rcases Nat.lt_or_ge i index with hi | hi
    · omega
    rcases Nat.eq_or_lt_of_le hi with hi | hi
    · -- the pair (index, index + 1)
      subst hi
      rw [hother (index + 1) (by omega)]
      have hmap2 : ((handleKeyframeDragMove kfs index raw)[index]?).map
          Keyframe.time = some (clampDragTime kfs index raw) := hat
      rw [hmap2]
      cases hnx : kfs[index + 1]? with
      | none =>
          exfalso
          exact (List.getElem?_eq_none_iff.mp hnx).not_lt (by omega)
      | some nxt =>
          have := hhigh nxt hnx
          have h100 : (0 : ℚ) < MIN_SEGMENT_DURATION := by
            norm_num [MIN_SEGMENT_DURATION]
          simp only [Option.map_some', Option.getD_some]
          linarith
    · rw [hother i (by omega), hother (i + 1) (by omega)]
      exact hs i hilen

theorem keyframe_drag_clamp_witness :
    ((1 : ℕ) ≠ 0 ∧ 1 < kfsThree.length ∧
      ∀ nxt ∈ kfsThree[2]?,
        ((kfsThree[0]?).map Keyframe.time).getD 0 + 2 * MIN_SEGMENT_DURATION ≤
          nxt.time) ∧
    ((kfsThree[0]?).map Keyframe.time).getD 0 + MIN_SEGMENT_DURATION ≤
      clampDragTime kfsThree 1 2500 ∧
    ∀ nxt ∈ kfsThree[2]?,
      clampDragTime kfsThree 1 2500 ≤ nxt.time - MIN_SEGMENT_DURATION := by
  have h1 : (1 : ℕ) ≠ 0 := by norm_num
  have h2 : 1 < kfsThree.length := by norm_num [kfsThree]
  have hwin : ∀ nxt ∈ kfsThree[2]?,
      ((kfsThree[0]?).map Keyframe.time).getD 0 + 2 * MIN_SEGMENT_DURATION ≤
        nxt.time := by
    norm_num [kfsThree, MIN_SEGMENT_DURATION]
  have h := keyframe_drag_clamp kfsThree 1 2500 h1 h2 hwin
  exact ⟨⟨h1, h2, hwin⟩, h.2.2.1, h.2.2.2.1⟩

/-- **C3, counterexample**: `play` does not deselect: from a paused state
with two keyframes and keyframe 1 selected for editing, `play` switches
`isAnimating` on while leaving `selectedKeyframeIndex = some 1` — playback
is active while a keyframe is selected. -/
theorem play_keeps_selection_counterexample :
    (play ⟨kfsLinear, false, some 1, 0, tPose⟩).isAnimating = true ∧
    (play ⟨kfsLinear, false, some 1, 0, tPose⟩).selectedKeyframeIndex =
      some 1 := by
  constructor <;> norm_num [play, kfsLinear]

/-- **C3, amended**: the exclusion holds in one direction only: selecting a
keyframe (`handleSelectKeyframe`) always pauses playback, but `play`
leaves any existing keyframe selection untouched, so playback can be
active while a keyframe is selected. -/
theorem select_pauses_play_keeps_selection (s : UIState) (i : ℕ) :
    (handleSelectKeyframe s i).isAnimating = false ∧
    ∀ s' : UIState, (play s').selectedKeyframeIndex =
      s'.selectedKeyframeIndex := by
  constructor
  · cases hkf : s.keyframes[i]? <;> by_cases hA : s.isAnimating <;>
      simp [handleSelectKeyframe, pause, hA, hkf]
  · intro s'
    rw [play]
    split <;> rfl

/-- **C4**: with a non-empty undo stack and playback/transitions inactive,
`undo` followed by `redo` restores the exact pre-undo pose and
proportions; `saveToHistory` always clears the redo stack, and `redo` on
an empty redo stack is a no-op — so an edit saved after an undo makes a
subsequent redo do nothing. -/
theorem undo_redo_roundtrip_and_redo_cleared (s : AppState) (n1 n2 : ℕ)
    (hne : s.history ≠ []) (ha : s.isAnimating = false)
    (ht : s.isTransitioning = false) :
    ((redo n2 (undo n1 s)).pivotOffsets = s.pivotOffsets ∧
      (redo n2 (undo n1 s)).props = s.props) ∧
    (∀ (s' : AppState) (n : ℕ), (saveToHistory n s').redoStack = []) ∧
    (∀ (s' : AppState) (n : ℕ), s'.redoStack = [] → redo n s' = s') := by
  refine ⟨?_, fun s' n => rfl, fun s' n h => by simp [redo, h]⟩
  obtain ⟨prev, hprev⟩ : ∃ p, s.history.getLast? = some p := by
    cases hl : s.history.getLast? with
    | none => exact absurd (List.getLast?_eq_none_iff.mp hl) hne
    | some p => exact ⟨p, rfl⟩
  simp only [undo, hprev]
  rw [if_neg (by simp [ha, ht])]
  simp only [redo]
  rw [if_neg (by simp [ha, ht])]
  simp [currentSnapshot]

theorem undo_redo_roundtrip_and_redo_cleared_witness :
    (([⟨tPose, atomicProps, 0, none⟩] : List HistoryState) ≠ [] ∧
      (false = false) ∧ (false = false)) ∧
    ((redo 2 (undo 1 ⟨elbowPose, atomicProps,
        [⟨tPose, atomicProps, 0, none⟩], [], false, false⟩)).pivotOffsets =
      elbowPose ∧
     (redo 2 (undo 1 ⟨elbowPose, atomicProps,
        [⟨tPose, atomicProps, 0, none⟩], [], false, false⟩)).props =
      atomicProps) := by
  have hne : ([⟨tPose, atomicProps, 0, none⟩] : List HistoryState) ≠ [] := by
    simp
  exact ⟨⟨hne, rfl, rfl⟩,
    (undo_redo_roundtrip_and_redo_cleared
      ⟨elbowPose, atomicProps, [⟨tPose, atomicProps, 0, none⟩], [],
        false, false⟩ 1 2 hne rfl rfl).1⟩

/-- **C5**: every child that `applyChainReaction` visits and applies a
delta to has non-zero `totalFactor = bendFactor + stretchFactor` (each
defaulting to 0 when unset) and ends in the returned pose with rotation
equal to its base rotation plus `parentDelta × totalFactor`; its recorded
parent delta is the original delta when its parent is the start joint and
otherwise the applied child delta of its parent's own log entry (the
child was enqueued with its applied delta for further propagation); and
the final visited set is closed under nonzero-factor children, so every
enqueued child's own qualifying children were propagated to in turn. -/
theorem chain_deltas_applied (b : Behaviors) (start : JointKey) (δ : ℚ)
    (init : Pose) :
    (∀ e ∈ (chainReactionFull b start δ init).2.2,
      totalFactor b e.child ≠ 0 ∧
      applyChainReaction b start δ init e.child =
        init e.child + e.parentDelta * totalFactor b e.child ∧
      ((e.parent = start ∧ e.parentDelta = δ) ∨
        ∃ e2 ∈ (chainReactionFull b start δ init).2.2, e2.child = e.parent ∧
          e.parentDelta = e2.parentDelta * totalFactor b e2.child)) ∧
    ∀ k ∈ (chainReactionFull b start δ init).2.1, ∀ c ∈ childrenOf k,
      totalFactor b c ≠ 0 → c ∈ (chainReactionFull b start δ init).2.1 := by
  have h := chainReactionFull_inv b start δ init
  refine ⟨fun e he => ⟨h.logFactor e he, h.logVal e he, h.logProv e he⟩, ?_⟩
  intro k hk c hc hf
  rcases h.closure k hk with ⟨d, hd⟩ | hcl
  · exact absurd hd (List.not_mem_nil _)
  · exact hcl c hc hf

theorem chain_deltas_applied_witness :
    (⟨.waist, .torso, 10⟩ : LogEntry) ∈
      (chainReactionFull torsoBend .waist 10 tPose).2.2 ∧
    (totalFactor torsoBend .torso ≠ 0 ∧
      applyChainReaction torsoBend .waist 10 tPose .torso =
        tPose .torso + 10 * totalFactor torsoBend .torso ∧
      (((⟨.waist, .torso, 10⟩ : LogEntry).parent = .waist ∧
          (⟨.waist, .torso, 10⟩ : LogEntry).parentDelta = 10) ∨
        ∃ e2 ∈ (chainReactionFull torsoBend .waist 10 tPose).2.2,
          e2.child = (⟨.waist, .torso, 10⟩ : LogEntry).parent ∧
          (⟨.waist, .torso, 10⟩ : LogEntry).parentDelta =
            e2.parentDelta * totalFactor torsoBend e2.child)) := by
  have he : (⟨.waist, .torso, 10⟩ : LogEntry) ∈
      (chainReactionFull torsoBend .waist 10 tPose).2.2 := by
    simp [chainReactionFull, chainLoop, chainStep, childrenOf,
      jointChildMap, totalFactor, torsoBend, updatePose]
  exact ⟨he, (chain_deltas_applied torsoBend .waist 10 tPose).1 _ he⟩

/-- **C6**: a joint whose bend and stretch factors are both zero or unset
is never changed by `applyChainReaction` (writes only go to
nonzero-factor children), and when the delta starts at one of its strict
ancestors its whole subtree is untouched as well — propagation stops at
the zero-factor joint. -/
theorem chain_zero_factor_decoupling (b : Behaviors) (start : JointKey)
    (δ : ℚ) (init : Pose) (j : JointKey) (h0 : totalFactor b j = 0) :
    applyChainReaction b start δ init j = init j ∧
    (j ∈ descTable start → ∀ x, x = j ∨ x ∈ descTable j →
      applyChainReaction b start δ init x = init x) := by
  constructor
  · have h := chainReactionFull_inv b start δ init
    refine h.unlogged j ?_
    intro hx
    rcases List.mem_map.mp hx with ⟨e, he, hch⟩
    exact h.logFactor e he (hch ▸ h0)
  · intro hj x hx
    have hstart : ¬ (start = j ∨ start ∈ descTable j) := by
      rintro (rfl | hmem)
      · exact (desc_acyclic start start hj).1 rfl
      · exact (desc_acyclic start j hj).2 hmem
    refine chainLoop_confined b (fun x => x = j ∨ x ∈ descTable j) ?_
      [(start, δ)] {start} init [] ?_ x hx
    · intro k c hk hc hf hQc
      rcases hQc with rfl | hdc
      · exact hf h0
      · rcases desc_unique_parent j k c hc hdc with rfl | hk2
        · exact hk (Or.inl rfl)
        · exact hk (Or.inr hk2)
    · intro p hp
      rcases List.mem_cons.mp hp with rfl | hp
      · exact hstart
      · exact absurd hp (List.not_mem_nil _)

theorem chain_zero_factor_decoupling_witness :
    totalFactor noBehaviors .torso = 0 ∧
    applyChainReaction noBehaviors .waist 10 tPose .torso = tPose .torso ∧
    (.torso ∈ descTable .waist ∧
      applyChainReaction noBehaviors .waist 10 tPose .collar =
        tPose .collar) := by
  have h0 : totalFactor noBehaviors .torso = 0 := by
    simp [totalFactor, noBehaviors]
  have hd : JointKey.torso ∈ descTable .waist := by decide
  have h := chain_zero_factor_decoupling noBehaviors .waist 10 tPose .torso h0
  exact ⟨h0, h.1, hd, h.2 hd .collar (Or.inr (by decide))⟩

/-- **C7**: `applyChainReaction` is a total function — its worklist
terminates on every behaviour configuration (including accidentally
cyclic ones) by well-founded recursion on the queue plus the visited set
seeded with the start joint — and each joint receives at most one applied
delta per call: the instrumented write log has pairwise-distinct child
joints, and any joint outside the log keeps its initial rotation
untouched. -/
theorem chain_single_visit (b : Behaviors) (start : JointKey) (δ : ℚ)
    (init : Pose) :
    ((chainReactionFull b start δ init).2.2.map LogEntry.child).Nodup ∧
    ∀ j, j ∉ (chainReactionFull b start δ init).2.2.map LogEntry.child →
      applyChainReaction b start δ init j = init j := by
  have h := chainReactionFull_inv b start δ init
  exact ⟨h.nodup, h.unlogged⟩

theorem chain_single_visit_witness :
    JointKey.neck ∉
      (chainReactionFull torsoBend .waist 10 tPose).2.2.map LogEntry.child ∧
    applyChainReaction torsoBend .waist 10 tPose .neck = tPose .neck := by
  have hmem : JointKey.neck ∉
      (chainReactionFull torsoBend .waist 10 tPose).2.2.map LogEntry.child := by
    simp [chainReactionFull, chainLoop, chainStep, childrenOf,
      jointChildMap, totalFactor, torsoBend, updatePose]
  exact ⟨hmem, (chain_single_visit torsoBend .waist 10 tPose).2 .neck hmem⟩

/-- **C10**: `applyChainReaction` is a pure function of its inputs (the
base pose is read through a copy `{...initialOffsets}` and never mutated
— copy-on-write is inherent to the functional embedding), and every joint
that is not a strict descendant of the start joint — including the start
joint itself, which is pre-seeded into the visited set — has exactly the
same rotation in the returned pose as in the base pose. -/
theorem chain_frame_condition (b : Behaviors) (start : JointKey) (δ : ℚ)
    (init : Pose) :
    ∀ j, j ∉ descTable start → applyChainReaction b start δ init j = init j := by
  intro j hj
  by_cases hjs : j = start
  · subst hjs
    exact chainLoop_visited_stable b [(j, δ)] {j} init [] j
      (Finset.mem_singleton_self j)
  · refine chainLoop_confined b
      (fun x => ¬ (x = start ∨ x ∈ descTable start)) ?_
      [(start, δ)] {start} init [] ?_ j (by tauto)
    · intro k c hk hc hf hQc
      apply hQc
      refine Or.inr ?_
      rcases not_not.mp hk with rfl | hkd
      · exact desc_child k c hc
      · exact desc_closure start k c hkd hc
    · intro p hp
      rcases List.mem_cons.mp hp with rfl | hp
      · exact not_not.mpr (Or.inl rfl)
      · exact absurd hp (List.not_mem_nil _)

theorem chain_frame_condition_witness :
    JointKey.l_hand ∉ descTable .l_hip ∧
    applyChainReaction torsoBend .l_hip 5 tPose .l_hand = tPose .l_hand := by
  have hm : JointKey.l_hand ∉ descTable .l_hip := by decide
  exact ⟨hm, chain_frame_condition torsoBend .l_hip 5 tPose .l_hand hm⟩

/-! ### Sortedness helpers for the timeline fallback -/

theorem lastTime_cons_cons (a bkf : Keyframe) (l : List Keyframe) :
    lastTime (a :: bkf :: l) = lastTime (bkf :: l) := by
  simp [lastTime, List.getLast?_cons_cons]

theorem time_le_lastTime : ∀ (a : Keyframe) (rest : List Keyframe),
    List.Chain' (fun x y => x.time ≤ y.time) (a :: rest) →
    a.time ≤ lastTime (a :: rest) := by
  intro a rest
  induction rest generalizing a with
  | nil => intro _; simp [lastTime]
  | cons bkf rest2 ih =>
      intro h
      rcases List.chain'_cons.mp h with ⟨h1, h2⟩
      calc a.time ≤ bkf.time := h1
        _ ≤ lastTime (bkf :: rest2) := ih bkf h2
        _ = lastTime (a :: bkf :: rest2) := (lastTime_cons_cons a bkf rest2).symm

theorem findSeg_none_of_ge_last : ∀ (kfs : List Keyframe) (t : ℚ),
    List.Chain' (fun x y => x.time ≤ y.time) kfs → lastTime kfs ≤ t →
    findSeg kfs t = none := by
  intro kfs
  induction kfs with
  | nil => intro t _ _; rfl
  | cons a rest ih =>
      cases rest with
      | nil => intro t _ _; rfl
      | cons bkf rest2 =>
          intro t hch ht
          rcases List.chain'_cons.mp hch with ⟨_, hch2⟩
          rw [lastTime_cons_cons] at ht
          rw [findSeg, if_neg ?_]
          · exact ih t hch2 ht
          · rintro ⟨_, h2⟩
            have hb : bkf.time ≤ lastTime (bkf :: rest2) :=
              time_le_lastTime bkf rest2 hch2
            linarith

/-- **C8**: with at least 2 time-sorted keyframes, a query time at or
beyond the last keyframe's time always resolves to the loop-closing
segment `[lastKeyframe.time, lastKeyframe.time + LOOP_DURATION)`
interpolating toward `keyframes[0]`'s pose; whenever a resolved segment
has zero duration the progress is defined as 1 instead of dividing by
zero; and every query time resolves to some segment. -/
theorem timeline_loop_fallback (kfs : List Keyframe) (t : ℚ)
    (hs : List.Chain' (fun a b => a.time ≤ b.time) kfs)
    (h2 : 2 ≤ kfs.length) (hlast : lastTime kfs ≤ t) :
    (∃ k0 kl, kfs.head? = some k0 ∧ kfs.getLast? = some kl ∧
      resolveSeg kfs t = some ⟨kl, k0.pose, kl.time, LOOP_DURATION⟩) ∧
    (∀ (u : ℚ) (seg : Segment), resolveSeg kfs u = some seg →
      seg.segDur = 0 → progressOf seg u = 1) ∧
    ∀ u : ℚ, (resolveSeg kfs u).isSome := by
  cases kfs with
  | nil => simp at h2
  | cons k0 rest =>
      obtain ⟨kl, hkl⟩ : ∃ kl, (k0 :: rest).getLast? = some kl :=
        Option.isSome_iff_exists.mp (List.getLast?_isSome.mpr (by simp))
      have hfind : findSeg (k0 :: rest) t = none :=
        findSeg_none_of_ge_last (k0 :: rest) t hs hlast
      refine ⟨⟨k0, kl, rfl, hkl, ?_⟩, ?_, ?_⟩
      · simp [resolveSeg, hkl, hfind]
      · intro u seg hseg h0
        rw [progressOf, if_neg (by rw [h0]; norm_num)]
      · intro u
        simp [resolveSeg, hkl]

theorem timeline_loop_fallback_witness :
    (List.Chain' (fun a b => a.time ≤ b.time) kfsThree ∧
      2 ≤ kfsThree.length ∧ lastTime kfsThree ≤ 2500) ∧
    ∃ k0 kl, kfsThree.head? = some k0 ∧ kfsThree.getLast? = some kl ∧
      resolveSeg kfsThree 2500 = some ⟨kl, k0.pose, kl.time, LOOP_DURATION⟩ := by
  have hs : List.Chain' (fun a b => a.time ≤ b.time) kfsThree := by
    norm_num [kfsThree]
  have h2 : 2 ≤ kfsThree.length := by norm_num [kfsThree]
  have hlast : lastTime kfsThree ≤ 2500 := by norm_num [lastTime, kfsThree]
  exact ⟨⟨hs, h2, hlast⟩, (timeline_loop_fallback kfsThree 2500 hs h2 hlast).1⟩


/-! ### Two-bone IK: reachability clamp and degenerate fallback -/

theorem fk_two_bone_dist_sq (a b t1 t2 : ℝ) :
    (a * Real.cos t1 + b * Real.cos (t1 + t2)) ^ 2 +
      (a * Real.sin t1 + b * Real.sin (t1 + t2)) ^ 2 =
    a ^ 2 + b ^ 2 + 2 * a * b * Real.cos t2 := by
  have h1 := Real.sin_sq_add_cos_sq t1
  have h2 := Real.sin_sq_add_cos_sq (t1 + t2)
  have h3 : Real.cos (t1 + t2 - t1) =
      Real.cos (t1 + t2) * Real.cos t1 + Real.sin (t1 + t2) * Real.sin t1 :=
    Real.cos_sub (t1 + t2) t1
  have h4 : t1 + t2 - t1 = t2 := by ring
  rw [h4] at h3
  linear_combination a ^ 2 * h1 + b ^ 2 * h2 - 2 * a * b * h3

/-- **C9**: `solveTwoBoneIK` never fails (it is a total function by
construction — spec-modelled, since `utils/kinematics` is not in the
repository): for a target at or beyond full extension `lenA + lenB`, the
root-to-target distance is clamped to `lenA + lenB - ε` before the trig
computation, and the forward-kinematic reconstruction of the returned
angle pair places the chain end at exactly that clamped distance from the
root — strictly less than `lenA + lenB`, so a far target yields the
fully-extended pose rather than a domain error; and a target coinciding
with the root returns the neutral angle pair `(0, 0)` instead of dividing
by zero. -/
theorem ik_reachability_clamp (target rootPos : Vec2R) (lenA lenB pr : ℝ)
    (m : Bool) (ha : 0 < lenA) (hb : 0 < lenB)
    (hev : IK_EPSILON < 2 * min lenA lenB)
    (hfar : lenA + lenB ≤ dist2 target rootPos) :
    (dist2 (fkEnd rootPos lenA lenB pr
        (solveTwoBoneIK target rootPos lenA lenB pr m)) rootPos =
      lenA + lenB - IK_EPSILON ∧
     lenA + lenB - IK_EPSILON < lenA + lenB) ∧
    ∀ rt : Vec2R, solveTwoBoneIK rt rt lenA lenB pr m = ⟨0, 0⟩ := by
  have hεpos : (0 : ℝ) < IK_EPSILON := by norm_num [IK_EPSILON]
  have hmin : 2 * min lenA lenB ≤ lenA + lenB := by
    rw [two_mul]
    exact add_le_add (min_le_left _ _) (min_le_right _ _)
  have hεab : IK_EPSILON < lenA + lenB := lt_of_lt_of_le hev hmin
  refine ⟨?_, ?_⟩
  swap
  · intro rt
    rw [solveTwoBoneIK]
    rw [if_pos]
    simp only [sub_self]
    rw [show (0:ℝ)^2 + 0^2 = 0 by ring, Real.sqrt_zero]
    exact hεpos
  have hraw_ge : lenA + lenB ≤
      Real.sqrt ((target.x - rootPos.x) ^ 2 + (target.y - rootPos.y) ^ 2) := hfar
  have hnotlt : ¬ Real.sqrt ((target.x - rootPos.x) ^ 2 +
      (target.y - rootPos.y) ^ 2) < IK_EPSILON :=
    not_lt.mpr (le_trans (le_of_lt hεab) hraw_ge)
  have hd : min (Real.sqrt ((target.x - rootPos.x) ^ 2 +
      (target.y - rootPos.y) ^ 2)) (lenA + lenB - IK_EPSILON) =
      lenA + lenB - IK_EPSILON :=
    min_eq_right (by linarith)
  have habs : |lenA - lenB| ≤ lenA + lenB - IK_EPSILON := by
    rcases le_total lenA lenB with h | h
    · rw [abs_of_nonpos (by linarith), min_eq_left h] at *
      linarith
    · rw [abs_of_nonneg (by linarith), min_eq_right h] at *
      linarith
  have hd0 : (0 : ℝ) ≤ lenA + lenB - IK_EPSILON :=
    le_trans (abs_nonneg _) habs
  have hub : (lenA ^ 2 + lenB ^ 2 - (lenA + lenB - IK_EPSILON) ^ 2) /
      (2 * lenA * lenB) ≤ 1 := by
    rw [div_le_one (by positivity)]
    nlinarith [sq_abs (lenA - lenB),
      mul_self_le_mul_self (abs_nonneg (lenA - lenB)) habs]
  have hlb : (-1 : ℝ) ≤ (lenA ^ 2 + lenB ^ 2 - (lenA + lenB - IK_EPSILON) ^ 2) /
      (2 * lenA * lenB) := by
    rw [le_div_iff₀ (by positivity)]
    nlinarith [hd0, hεpos]
  have hsolve : solveTwoBoneIK target rootPos lenA lenB pr m =
      ⟨Complex.arg ⟨target.x - rootPos.x, target.y - rootPos.y⟩ +
        (if m then (1 : ℝ) else -1) * Real.arccos
          ((lenA ^ 2 + (lenA + lenB - IK_EPSILON) ^ 2 - lenB ^ 2) /
            (2 * lenA * (lenA + lenB - IK_EPSILON))) - pr,
       (if m then (1 : ℝ) else -1) * (Real.arccos
          ((lenA ^ 2 + lenB ^ 2 - (lenA + lenB - IK_EPSILON) ^ 2) /
            (2 * lenA * lenB)) - Real.pi)⟩ := by
    rw [solveTwoBoneIK, if_neg hnotlt, hd]
  have hstep : Real.cos (Real.arccos
      ((lenA ^ 2 + lenB ^ 2 - (lenA + lenB - IK_EPSILON) ^ 2) /
        (2 * lenA * lenB)) - Real.pi) =
      -((lenA ^ 2 + lenB ^ 2 - (lenA + lenB - IK_EPSILON) ^ 2) /
        (2 * lenA * lenB)) := by
    rw [show Real.arccos ((lenA ^ 2 + lenB ^ 2 -
        (lenA + lenB - IK_EPSILON) ^ 2) / (2 * lenA * lenB)) - Real.pi =
      -(Real.pi - Real.arccos ((lenA ^ 2 + lenB ^ 2 -
        (lenA + lenB - IK_EPSILON) ^ 2) / (2 * lenA * lenB))) by ring]
    rw [Real.cos_neg, Real.cos_pi_sub, Real.cos_arccos hlb hub]
  have hcos2 : Real.cos ((solveTwoBoneIK target rootPos lenA lenB pr m).angle2) =
      -((lenA ^ 2 + lenB ^ 2 - (lenA + lenB - IK_EPSILON) ^ 2) /
        (2 * lenA * lenB)) := by
    rw [hsolve]
    cases m with
    | true => simpa using hstep
    | false =>
        simpa only [Bool.false_eq_true, if_false, neg_one_mul,
          Real.cos_neg] using hstep
  have harg : lenA ^ 2 + lenB ^ 2 + 2 * lenA * lenB *
      Real.cos ((solveTwoBoneIK target rootPos lenA lenB pr m).angle2) =
      (lenA + lenB - IK_EPSILON) ^ 2 := by
    rw [hcos2]
    field_simp
  constructor
  · rw [dist2, fkEnd]
    have hx : rootPos.x + lenA * Real.cos (pr +
        (solveTwoBoneIK target rootPos lenA lenB pr m).angle1) +
        lenB * Real.cos (pr +
          (solveTwoBoneIK target rootPos lenA lenB pr m).angle1 +
          (solveTwoBoneIK target rootPos lenA lenB pr m).angle2) - rootPos.x =
        lenA * Real.cos (pr +
          (solveTwoBoneIK target rootPos lenA lenB pr m).angle1) +
        lenB * Real.cos (pr +
          (solveTwoBoneIK target rootPos lenA lenB pr m).angle1 +
          (solveTwoBoneIK target rootPos lenA lenB pr m).angle2) := by ring
    have hy : rootPos.y + lenA * Real.sin (pr +
        (solveTwoBoneIK target rootPos lenA lenB pr m).angle1) +
        lenB * Real.sin (pr +
          (solveTwoBoneIK target rootPos lenA lenB pr m).angle1 +
          (solveTwoBoneIK target rootPos lenA lenB pr m).angle2) - rootPos.y =
        lenA * Real.sin (pr +
          (solveTwoBoneIK target rootPos lenA lenB pr m).angle1) +
        lenB * Real.sin (pr +
          (solveTwoBoneIK target rootPos lenA lenB pr m).angle1 +
          (solveTwoBoneIK target rootPos lenA lenB pr m).angle2) := by ring
    rw [hx, hy, fk_two_bone_dist_sq, harg, Real.sqrt_sq hd0]
  · linarith

theorem ik_reachability_clamp_witness :
    ((0 : ℝ) < 100 ∧ IK_EPSILON < 2 * min (100 : ℝ) 100 ∧
      (100 : ℝ) + 100 ≤ dist2 ⟨500, 0⟩ ⟨0, 0⟩) ∧
    (dist2 (fkEnd ⟨0, 0⟩ 100 100 0
        (solveTwoBoneIK ⟨500, 0⟩ ⟨0, 0⟩ 100 100 0 true)) ⟨0, 0⟩ =
      100 + 100 - IK_EPSILON ∧
     (100 : ℝ) + 100 - IK_EPSILON < 100 + 100) := by
  have ha : (0 : ℝ) < 100 := by norm_num
  have hε : IK_EPSILON < 2 * min (100 : ℝ) 100 := by norm_num [IK_EPSILON]
  have hfar : (100 : ℝ) + 100 ≤ dist2 ⟨500, 0⟩ ⟨0, 0⟩ := by
    have h : dist2 (⟨500, 0⟩ : Vec2R) ⟨0, 0⟩ = 500 := by
      rw [dist2]
      rw [show ((⟨500, 0⟩ : Vec2R).x - (⟨0, 0⟩ : Vec2R).x) ^ 2 +
        ((⟨500, 0⟩ : Vec2R).y - (⟨0, 0⟩ : Vec2R).y) ^ 2 = 500 ^ 2 by norm_num]
      exact Real.sqrt_sq (by norm_num)
    rw [h]
    norm_num
  exact ⟨⟨ha, hε, hfar⟩,
    (ik_reachability_clamp ⟨500, 0⟩ ⟨0, 0⟩ 100 100 0 true ha ha hε hfar).1⟩

end Bitruvius
